import Mathlib

/-! # dynamo-es: an append-only event store on a conditional-write table

A shallow embedding of `dynamo.go` and `iterator.go`.

* `core.Version` is `uint64`: a `Nat` below `2 ^ 64`, arithmetic reduced `% 2 ^ 64`.
* The storage client (`store.db`) is consumed through three requests, `Query`,
  `UpdateItem` and `TransactWriteItems`; they are the fields of `Client`, each taking the
  backend state and returning the answer with the next state.  The Go methods are written
  against `Client`, so what is proved of them over a client `db` holds of every backend,
  failing ones included.
* `dynamodb` is the client whose requests are all served, one after the other, by a table:
  a list of items under the primary key `(AggregateID, Version)`, the counter record among
  them.  A query is answered in one page, numbers are the numbers their text denotes, and
  the only text kept as text is the answer of the counter update, which the code parses.
* A Go call that panics is the outcome `panic`.
-/

namespace DynamoES

/-- The modulus of `uint64` arithmetic. -/
def uint64Mod : Nat := 2 ^ 64

/-- The sign boundary of `int64`: the values from here on convert to negative numbers. -/
def int64Bound : Nat := 2 ^ 63

/-- Modelled from the spec: the record type `core.Event` of the imported package
`eventsourcing/core`, with the fields §3 lists (identity, type, version, global version,
payload, metadata).  `Version` and `GlobalVersion` are `uint64` values. -/
structure Event where
  AggregateID : String
  Version : Nat
  GlobalVersion : Nat
  AggregateType : String
  Reason : String
  Data : List Nat
  Metadata : List Nat
deriving DecidableEq, Repr

/-- The zero value `core.Event{}`. -/
def Event.zero : Event :=
  { AggregateID := "", Version := 0, GlobalVersion := 0, AggregateType := "", Reason := "",
    Data := [], Metadata := [] }

/-- The two failures of `strconv.ParseUint`. -/
inductive NumError where
  | ErrSyntax
  | ErrRange
deriving DecidableEq, Repr

/-- The error values that travel through the store. -/
inductive Error where
  /-- The sentinel `core.ErrConcurrency`. -/
  | ErrConcurrency
  /-- The backend cancelled a transaction: `*types.TransactionCanceledException`. -/
  | TransactionCanceledException
  /-- The backend refused a malformed request. -/
  | ValidationException
  /-- Any other fault of the storage layer. -/
  | backend (code : Nat)
  /-- A failure of `attributevalue.UnmarshalMap`. -/
  | unmarshal
  /-- A failure of `attributevalue.MarshalMap`. -/
  | marshal
  /-- The wrapped error `fmt.Errorf("error parsing GlobalVersion: %w", err)`. -/
  | parsingGlobalVersion (cause : NumError)
  /-- The error `errors.New("iterator out of bounds")`. -/
  | outOfBounds
deriving DecidableEq, Repr

/-- The SDK union `types.AttributeValue`, as far as this table uses it; a number travels as
its decimal text. -/
inductive AttributeValue where
  | S (Value : String)
  | N (Value : String)
  | B (Value : List Nat)
  | NULL
deriving DecidableEq, Repr

/-- An attribute map `map[string]types.AttributeValue` as an answer of `UpdateItem`. -/
abbrev Attributes := List (String × AttributeValue)

/-- The primary key of the table: hash key `AggregateID`, range key `Version`. -/
structure Key where
  AggregateID : String
  Version : Nat
deriving DecidableEq, Repr

/-- A stored item: its two key attributes and the attributes an event marshals to.  Numbers
are kept as the numbers their text denotes; the table puts no `uint64` bound on them.  An
absent attribute is its zero value, which is also what decoding makes of it. -/
structure Item where
  AggregateID : String
  Version : Nat
  GlobalVersion : Nat
  AggregateType : String
  Reason : String
  Data : List Nat
  Metadata : List Nat
deriving DecidableEq, Repr

/-- The primary key of an item. -/
def Item.key (item : Item) : Key :=
  { AggregateID := item.AggregateID, Version := item.Version }

/-- The item an event encodes to: one attribute per field. -/
def Event.item (event : Event) : Item :=
  { AggregateID := event.AggregateID, Version := event.Version,
    GlobalVersion := event.GlobalVersion, AggregateType := event.AggregateType,
    Reason := event.Reason, Data := event.Data, Metadata := event.Metadata }

/-- The encoder `attributevalue.MarshalMap` on an event; every field of an event encodes. -/
def MarshalMap (event : Event) : Except Error Item :=
  .ok event.item

/-- The decoder `attributevalue.UnmarshalMap` into an event: a number that does not fit
`uint64` is a decoding error. -/
def UnmarshalMap (item : Item) : Except Error Event :=
  if item.Version < uint64Mod ∧ item.GlobalVersion < uint64Mod then
    .ok { AggregateID := item.AggregateID, Version := item.Version,
          GlobalVersion := item.GlobalVersion, AggregateType := item.AggregateType,
          Reason := item.Reason, Data := item.Data, Metadata := item.Metadata }
  else .error .unmarshal

/-! ## Number text -/

/-- The loop of `strconv.ParseUint(s, 10, 64)`: a byte that is no decimal digit is a syntax
error, a value that leaves `uint64` a range error. -/
def parseUintLoop : List Char → Nat → Except NumError Nat
  | [], n => .ok n
  | c :: cs, n =>
      if c.isDigit then
        let n1 := n * 10 + (c.toNat - 48)
        if n1 < uint64Mod then parseUintLoop cs n1 else .error .ErrRange
      else .error .ErrSyntax

/-- The call `strconv.ParseUint(s, 10, 64)`; the empty text is a syntax error. -/
def ParseUint (s : String) : Except NumError Nat :=
  if s.data = [] then .error .ErrSyntax else parseUintLoop s.data 0

/-- The decimal text of a natural number, as the backend writes a number. -/
def formatNat (n : Nat) : String := Nat.repr n

/-- The conversion `int64(v)` of a `uint64`. -/
def toInt64 (v : Nat) : Int :=
  if v % uint64Mod < int64Bound then (v % uint64Mod : Nat)
  else (v % uint64Mod : Nat) - (uint64Mod : Int)

/-! ## The storage client -/

/-- A `dynamodb.QueryInput` of this store: the hash key, the optional strict lower bound
`Version > :version`, the direction and the limit. -/
structure QueryInput where
  AggregateID : String
  versionAbove : Option Int
  ScanIndexForward : Bool
  Limit : Option Nat
deriving Repr

/-- A `types.Put` of `Save`: the item and the value `:version` of its condition
`attribute_not_exists(AggregateID) OR Version = :version`. -/
structure Put where
  Item : Item
  version : Nat
deriving DecidableEq, Repr

/-- The storage client `store.db` over a backend state `σ`. -/
structure Client (σ : Type) where
  /-- The request `Query`: the first page of items. -/
  Query : QueryInput → σ → Except Error (List Item) × σ
  /-- The request `UpdateItem` with
  `SET GlobalVersion = if_not_exists(GlobalVersion, :start) + :inc` and `UPDATED_NEW`. -/
  UpdateItem : Key → σ → Except Error Attributes × σ
  /-- The request `TransactWriteItems`; `none` is success. -/
  TransactWriteItems : List Put → σ → Option Error × σ

/-! ## iterator.go -/

/-- The cursor `iterator`. -/
structure iterator where
  items : List Item
  current : Int
deriving DecidableEq, Repr

/-- The method `Next`: advance, and tell whether an element is there. -/
def iterator.Next (it : iterator) : Bool × iterator :=
  let it1 : iterator := { it with current := it.current + 1 }
  (decide (it1.current < it1.items.length), it1)

/-- The method `Value`: the decoded element at the position, or an error with the zero
event. -/
def iterator.Value (it : iterator) : Event × Option Error :=
  if h : it.current < 0 ∨ it.current ≥ it.items.length then
    (Event.zero, some .outOfBounds)
  else
    have hlt : it.current.toNat < it.items.length := by
      have h1 : 0 ≤ it.current := by omega
      have h2 : it.current < it.items.length := by omega
      omega
    match UnmarshalMap (it.items.get ⟨it.current.toNat, hlt⟩) with
    | .error err => (Event.zero, some err)
    | .ok event => (event, none)

/-- The method `Close`: nothing to release. -/
def iterator.Close (it : iterator) : iterator := it

/-! ## The table behind the client -/

/-- The backend state: the items of the table. -/
abbrev Table := List Item

/-- The key of the counter record: `AggregateID = "GlobalVersionCounter"`, `Version = 0`. -/
def counterKey : Key := { AggregateID := "GlobalVersionCounter", Version := 0 }

/-- The item stored under a key, if any. -/
def Table.lookup (t : Table) (k : Key) : Option Item :=
  t.find? (fun item => decide (item.key = k))

/-- The key condition of a query: the hash key matches and, when a bound is given,
`Version > :version`. -/
def QueryInput.matches (input : QueryInput) (item : Item) : Bool :=
  decide (item.AggregateID = input.AggregateID) &&
    (match input.versionAbove with
     | none => true
     | some v => decide (v < (item.Version : Int)))

/-- A served `Query`: the matching items by ascending range key, reversed when
`ScanIndexForward` is false, cut at `Limit`. -/
def tableQuery (input : QueryInput) (t : Table) : List Item :=
  let ascending := (t.filter input.matches).insertionSort (fun a b => a.Version ≤ b.Version)
  let ordered := if input.ScanIndexForward then ascending else ascending.reverse
  match input.Limit with
  | none => ordered
  | some n => ordered.take n

/-- The item a counter update creates under a key that held none: the key attributes and
`GlobalVersion = 0 + 1`. -/
def Key.created (k : Key) : Item :=
  { AggregateID := k.AggregateID, Version := k.Version, GlobalVersion := 1,
    AggregateType := "", Reason := "", Data := [], Metadata := [] }

/-- A served `UpdateItem`: `GlobalVersion` of the item under the key becomes
`if_not_exists(GlobalVersion, 0) + 1`, the item being created when absent; the answer is the
new attribute as a number text. -/
def tableUpdateItem (k : Key) (t : Table) : Attributes × Table :=
  match t.lookup k with
  | some old =>
      let v := old.GlobalVersion + 1
      ([("GlobalVersion", .N (formatNat v))],
        t.map (fun item => if item.key = k then { item with GlobalVersion := v } else item))
  | none => ([("GlobalVersion", .N (formatNat 1))], t ++ [k.created])

/-- The condition `attribute_not_exists(AggregateID) OR Version = :version` of a put, on the
item the table holds under the key of the new item. -/
def Put.conditionHolds (p : Put) (t : Table) : Bool :=
  match t.lookup p.Item.key with
  | none => true
  | some old => decide (old.Version = p.version)

/-- A put that is applied: the item replaces what the key held. -/
def tablePut (t : Table) (item : Item) : Table :=
  t.filter (fun old => decide (old.key ≠ item.key)) ++ [item]

/-- A served `TransactWriteItems`: two operations on one item are refused, a failed condition
cancels the transaction, and otherwise every put is applied; nothing is written on failure. -/
def tableTransactWriteItems (puts : List Put) (t : Table) : Option Error × Table :=
  if (puts.map (fun p => p.Item.key)).Nodup then
    if puts.all (fun p => p.conditionHolds t) then
      (none, puts.foldl (fun acc p => tablePut acc p.Item) t)
    else (some .TransactionCanceledException, t)
  else (some .ValidationException, t)

/-- The client all of whose requests are served by the table. -/
def dynamodb : Client Table where
  Query := fun input t => (.ok (tableQuery input t), t)
  UpdateItem := fun k t => (.ok (tableUpdateItem k t).1, (tableUpdateItem k t).2)
  TransactWriteItems := tableTransactWriteItems

/-- The event records of a table: every item but the counter record. -/
def Table.eventRecords (t : Table) : List Item :=
  t.filter (fun item => decide (item.key ≠ counterKey))

/-- The value the global counter holds: `0` when the counter record is absent. -/
def Table.counter (t : Table) : Nat :=
  match t.lookup counterKey with
  | some item => item.GlobalVersion
  | none => 0

/-! ## dynamo.go -/

/-- The outcome of a Go call: it returns, or it panics. -/
inductive Outcome (α : Type) where
  | ret (a : α)
  | panic
deriving DecidableEq, Repr

/-- The method `getLastVersion`: the `Version` of the newest record of the aggregate, `0`
without one. -/
def getLastVersion {σ : Type} (db : Client σ) (aggregateID : String) (s : σ) :
    (Nat × Option Error) × σ :=
  let input : QueryInput :=
    { AggregateID := aggregateID, versionAbove := none, ScanIndexForward := false,
      Limit := some 1 }
  match db.Query input s with
  | (.error err, s1) => ((0, some err), s1)
  | (.ok items, s1) =>
      match items with
      | [] => ((0, none), s1)
      | item :: _ =>
          match UnmarshalMap item with
          | .error err => ((0, some err), s1)
          | .ok event => ((event.Version, none), s1)

/-- The method `getAndUpdateGlobalVersion`: one counter update, the answer asserted to be a
number attribute and parsed. -/
def getAndUpdateGlobalVersion {σ : Type} (db : Client σ) (s : σ) :
    Outcome (Nat × Option Error) × σ :=
  match db.UpdateItem counterKey s with
  | (.error err, s1) => (.ret (0, some err), s1)
  | (.ok attributes, s1) =>
      match attributes.lookup "GlobalVersion" with
      | some (.N newVersionStr) =>
          match ParseUint newVersionStr with
          | .error err => (.ret (0, some (.parsingGlobalVersion err)), s1)
          | .ok newVersion => (.ret (newVersion, none), s1)
      | _ => (.panic, s1)

/-- What the `for i, event := range events` loop of `Save` leaves: how it ended (`inl`: the
call is over with this outcome; `inr`: the transaction items are built), the caller's slice
and the backend state. -/
structure LoopResult (σ : Type) where
  exit : Outcome (Option Error) ⊕ List Put
  events : List Event
  db : σ

/-- The loop of `Save`.  The caller's slice is `done ++ pending`, the loop variable `event`
is the copy of the head of `pending`, and `transactItems` collects the puts. -/
def saveLoop {σ : Type} (db : Client σ) :
    List Event → List Event → List Put → σ → LoopResult σ
  | done, [], transactItems, s => { exit := .inr transactItems, events := done, db := s }
  | done, event :: rest, transactItems, s =>
      match getAndUpdateGlobalVersion db s with
      | (.panic, s1) => { exit := .inl .panic, events := done ++ event :: rest, db := s1 }
      | (.ret (_, some err), s1) =>
          { exit := .inl (.ret (some err)), events := done ++ event :: rest, db := s1 }
      | (.ret (globalVersion, none), s1) =>
          -- events[i].GlobalVersion = globalVersion
          let done1 := done ++ [{ event with GlobalVersion := globalVersion }]
          -- av, err := attributevalue.MarshalMap(event)
          match MarshalMap event with
          | .error err => { exit := .inl (.ret (some err)), events := done1 ++ rest, db := s1 }
          | .ok av =>
              saveLoop db done1 rest
                (transactItems ++
                  [{ Item := av, version := (event.Version + uint64Mod - 1) % uint64Mod }]) s1

/-- What a call of `Save` leaves: the returned error (`ret none` is `nil`), the caller's
slice and the backend state. -/
structure SaveResult (σ : Type) where
  err : Outcome (Option Error)
  events : List Event
  db : σ

/-- The method `Save`. -/
def Save {σ : Type} (db : Client σ) (events : List Event) (s : σ) : SaveResult σ :=
  match events with
  | [] => { err := .ret none, events := events, db := s }
  | first :: _ =>
      match getLastVersion db first.AggregateID s with
      | ((_, some err), s1) => { err := .ret (some err), events := events, db := s1 }
      | ((lastVersion, none), s1) =>
          if (lastVersion + 1) % uint64Mod ≠ first.Version then
            { err := .ret (some .ErrConcurrency), events := events, db := s1 }
          else
            match saveLoop db [] events [] s1 with
            | { exit := .inl out, events := events1, db := s2 } =>
                { err := out, events := events1, db := s2 }
            | { exit := .inr transactItems, events := events1, db := s2 } =>
                match db.TransactWriteItems transactItems s2 with
                | (some err, s3) =>
                    if err = .TransactionCanceledException then
                      { err := .ret (some .ErrConcurrency), events := events1, db := s3 }
                    else { err := .ret (some err), events := events1, db := s3 }
                | (none, s3) => { err := .ret none, events := events1, db := s3 }

/-- The method `Get`: one query, its page wrapped in an iterator before the first element. -/
def Get {σ : Type} (db : Client σ) (id : String) (aggregateType : String)
    (afterVersion : Nat) (s : σ) : Except Error iterator × σ :=
  let _ := aggregateType
  let queryInput : QueryInput :=
    { AggregateID := id, versionAbove := some (toInt64 afterVersion),
      ScanIndexForward := true, Limit := none }
  match db.Query queryInput s with
  | (.error err, s1) => (.error err, s1)
  | (.ok items, s1) => (.ok { items := items, current := -1 }, s1)

/-- The method `SaveWithExtraTx`: it does nothing. -/
def SaveWithExtraTx {σ : Type} (events : List Event) (txInputs : List Put) (s : σ) :
    SaveResult σ :=
  let _ := txInputs
  { err := .ret none, events := events, db := s }

/-- The iterator after `k` calls of `Next`. -/
def iterator.afterNext : Nat → iterator → iterator
  | 0, it => it
  | k + 1, it => (iterator.afterNext k it).Next.2

/-! ## What a healthy `Save` does to the table and the slice -/

/-- The primary key an event is stored under. -/
def Event.key (event : Event) : Key :=
  { AggregateID := event.AggregateID, Version := event.Version }

/-- The put `Save` builds for an event: its item, and `:version` set to `event.Version - 1`
in `uint64`. -/
def Event.put (event : Event) : Put :=
  { Item := event.item, version := (event.Version + uint64Mod - 1) % uint64Mod }

/-- The table after `n` served counter updates. -/
def allocated : Nat → Table → Table
  | 0, t => t
  | n + 1, t => allocated n (tableUpdateItem counterKey t).2

/-- The slice with the values `c + 1, c + 2, ...` in the `GlobalVersion` fields. -/
def stamped (c : Nat) : List Event → List Event
  | [] => []
  | event :: rest => { event with GlobalVersion := c + 1 } :: stamped (c + 1) rest

/-- The versions stored for an aggregate, in table order. -/
def Table.versionsOf (t : Table) (aggregateID : String) : List Nat :=
  (t.eventRecords.filter (fun item => decide (item.AggregateID = aggregateID))).map
    (fun item => item.Version)

/-! ## The allocator run behind a `Save` -/

/-- Up to `n` successive calls of `getAndUpdateGlobalVersion`, stopping at the first that
does not return a value: the values issued before that, how the run ended (`ret none` when
all `n` calls returned a value, else the outcome of the failing call), and the backend
state. -/
def allocations {σ : Type} (db : Client σ) : Nat → σ → List Nat × Outcome (Option Error) × σ
  | 0, s => ([], .ret none, s)
  | n + 1, s =>
      match getAndUpdateGlobalVersion db s with
      | (.panic, s1) => ([], .panic, s1)
      | (.ret (_, some err), s1) => ([], .ret (some err), s1)
      | (.ret (globalVersion, none), s1) =>
          (globalVersion :: (allocations db n s1).1, (allocations db n s1).2.1,
            (allocations db n s1).2.2)

/-- The slice whose first events carry the given values in `GlobalVersion`, one value per
event, the events beyond the values being as they were. -/
def assigned : List Nat → List Event → List Event
  | v :: vs, event :: rest => { event with GlobalVersion := v } :: assigned vs rest
  | _, events => events

/-- An event with its `GlobalVersion` field blanked: every other field. -/
def Event.withoutGlobalVersion (event : Event) : Event :=
  { event with GlobalVersion := 0 }

/-- The table client, except that its counter update answers with the given attributes. -/
def answering (attributes : Attributes) : Client Table :=
  { dynamodb with UpdateItem := fun _ t => (.ok attributes, t) }

/-- A table whose counter record holds `2 ^ 64 - 2`. -/
def tableLastValue : Table :=
  [{ counterKey.created with GlobalVersion := uint64Mod - 2 }]

/-! ## The scenario of §8: aggregate `A1` -/

/-- An event as a caller builds it: `GlobalVersion` unset. -/
def newEvent (aggregateID : String) (version : Nat) (data : List Nat) : Event :=
  { AggregateID := aggregateID, Version := version, GlobalVersion := 0,
    AggregateType := "Account", Reason := "Opened", Data := data, Metadata := [] }

/-- The table after `Save([{A1, Version:1}])` on an empty table. -/
def tableA1 : Table := (Save dynamodb [newEvent "A1" 1 [120]] []).db

/-- The record that call stored: its `GlobalVersion` attribute is the caller's. -/
def recordA1 : Item :=
  { AggregateID := "A1", Version := 1, GlobalVersion := 0, AggregateType := "Account",
    Reason := "Opened", Data := [120], Metadata := [] }

/-! # Properties -/

/-! ## Number text: parsing what the backend formats -/

theorem digitChar_isDigit (d : Nat) (hd : d < 10) :
    (Nat.digitChar d).isDigit = true ∧ (Nat.digitChar d).toNat - 48 = d := by
  interval_cases d <;> decide

theorem toDigitsCore_ne_nil (fuel v : Nat) (ds : List Char) (hds : ds ≠ []) :
    Nat.toDigitsCore 10 fuel v ds ≠ [] := by
  induction fuel generalizing v ds with
  | zero => simpa [Nat.toDigitsCore] using hds
  | succ fuel ih =>
      simp only [Nat.toDigitsCore]
      split_ifs
      · simp
      · exact ih _ _ (by simp)

theorem toDigits_ne_nil (v : Nat) : Nat.toDigits 10 v ≠ [] := by
  simp only [Nat.toDigits, Nat.toDigitsCore]
  split_ifs
  · simp
  · exact toDigitsCore_ne_nil _ _ _ (by simp)

theorem parseUintLoop_digit (d : Nat) (hd : d < 10) (ds : List Char) (n : Nat) :
    parseUintLoop (Nat.digitChar d :: ds) n =
      if n * 10 + d < uint64Mod then parseUintLoop ds (n * 10 + d) else .error .ErrRange := by
  simp only [parseUintLoop, (digitChar_isDigit d hd).1, (digitChar_isDigit d hd).2, if_true]

theorem parseUintLoop_toDigitsCore (fuel : Nat) :
    ∀ (v : Nat) (ds : List Char) (n : Nat), v < fuel →
      ∃ L : Nat, parseUintLoop (Nat.toDigitsCore 10 fuel v ds) n =
        if n * 10 ^ L + v < uint64Mod then parseUintLoop ds (n * 10 ^ L + v)
        else .error .ErrRange := by
  induction fuel with
  | zero => intro v ds n h; omega
  | succ fuel ih =>
      intro v ds n hv
      simp only [Nat.toDigitsCore]
      by_cases h0 : v / 10 = 0
      · refine ⟨1, ?_⟩
        have hlt : v < 10 := by omega
        simp only [h0, if_true, Nat.mod_eq_of_lt hlt, pow_one]
        exact parseUintLoop_digit v hlt ds n
      · have hdiv : v / 10 < fuel := by omega
        obtain ⟨L, hL⟩ := ih (v / 10) (Nat.digitChar (v % 10) :: ds) n hdiv
        refine ⟨L + 1, ?_⟩
        simp only [h0, if_false]
        rw [hL, parseUintLoop_digit (v % 10) (Nat.mod_lt _ (by norm_num)) ds]
        have hval : (n * 10 ^ L + v / 10) * 10 + v % 10 = n * 10 ^ (L + 1) + v := by
          have := Nat.div_add_mod v 10
          rw [pow_succ]
          nlinarith
        rw [hval]
        by_cases hr : n * 10 ^ (L + 1) + v < uint64Mod
        · have : n * 10 ^ L + v / 10 < uint64Mod := by
            have : n * 10 ^ L + v / 10 ≤ n * 10 ^ (L + 1) + v := by
              rw [← hval]; omega
            omega
          simp [hr, this]
        · simp [hr]

theorem ParseUint_formatNat (v : Nat) :
    ParseUint (formatNat v) = if v < uint64Mod then .ok v else .error .ErrRange := by
  have hdata : (formatNat v).data = Nat.toDigits 10 v := rfl
  unfold ParseUint
  rw [hdata, if_neg (toDigits_ne_nil v)]
  obtain ⟨L, hL⟩ := parseUintLoop_toDigitsCore (v + 1) v [] 0 (Nat.lt_succ_self v)
  simp only [Nat.toDigits]
  rw [hL]
  simp [parseUintLoop]

/-! ## The table: counter updates -/

theorem Event.item_key (event : Event) : event.item.key = event.key := rfl

theorem Table.lookup_key (t : Table) (k : Key) (item : Item) (h : t.lookup k = some item) :
    item.key = k := by
  have := List.find?_some h
  simpa using this

theorem Table.lookup_mem (t : Table) (k : Key) (item : Item) (h : t.lookup k = some item) :
    item ∈ t := List.mem_of_find?_eq_some h

theorem Table.lookup_eq_none_iff (t : Table) (k : Key) :
    t.lookup k = none ↔ ∀ item ∈ t, item.key ≠ k := by
  simp [Table.lookup, List.find?_eq_none]

theorem Table.lookup_isSome_iff (t : Table) (k : Key) :
    (t.lookup k).isSome ↔ ∃ item ∈ t, item.key = k := by
  rw [← not_iff_not]
  simp [Table.lookup_eq_none_iff]

theorem Key.created_key (k : Key) : k.created.key = k := rfl

/-- A served counter update, key by key: the counter's key holds a record with the next
value, and every other key holds what it held. -/
theorem tableUpdateItem_lookup (t : Table) (k : Key) :
    (tableUpdateItem counterKey t).2.lookup k =
      if k = counterKey then
        (match t.lookup counterKey with
         | some old => some { old with GlobalVersion := old.GlobalVersion + 1 }
         | none => some counterKey.created)
      else t.lookup k := by
  unfold tableUpdateItem
  cases hold : t.lookup counterKey with
  | none =>
      simp only
      unfold Table.lookup at hold ⊢
      rw [List.find?_append]
      by_cases hk : k = counterKey
      · subst hk
        rw [hold]
        simp [Key.created_key]
      · have hne : ¬ counterKey = k := fun h => hk h.symm
        simp [hk, Key.created_key, hne]
  | some old =>
      simp only
      have hkey : ∀ item : Item,
          (if item.key = counterKey then
            ({ item with GlobalVersion := old.GlobalVersion + 1 } : Item) else item).key
            = item.key := by
        intro item; split_ifs <;> rfl
      unfold Table.lookup at hold ⊢
      rw [List.find?_map]
      have hcomp : ((fun item : Item => decide (item.key = k)) ∘
          (fun item : Item => if item.key = counterKey then
            ({ item with GlobalVersion := old.GlobalVersion + 1 } : Item) else item)) =
          (fun item : Item => decide (item.key = k)) := by
        funext item
        simp only [Function.comp, hkey]
      rw [hcomp]
      by_cases hk : k = counterKey
      · subst hk
        have hok : old.key = counterKey := by
          have := List.find?_some hold
          simpa using this
        simp [hold, hok]
      · simp only [hk, if_false]
        cases hf : List.find? (fun item : Item => decide (item.key = k)) t with
        | none => rfl
        | some item =>
            have hik : item.key = k := by
              have := List.find?_some hf
              simpa using this
            have : ¬ item.key = counterKey := by rw [hik]; exact hk
            simp [this]

theorem tableUpdateItem_counter (t : Table) :
    (tableUpdateItem counterKey t).2.counter = t.counter + 1 := by
  unfold Table.counter
  rw [tableUpdateItem_lookup]
  cases t.lookup counterKey <;> simp [Key.created]

theorem tableUpdateItem_eventRecords (t : Table) :
    (tableUpdateItem counterKey t).2.eventRecords = t.eventRecords := by
  unfold tableUpdateItem Table.eventRecords
  cases hold : t.lookup counterKey with
  | none => simp [List.filter_append, Key.created_key]
  | some old =>
      simp only
      rw [List.filter_map]
      have hcomp : ((fun item : Item => decide (item.key ≠ counterKey)) ∘
          (fun item : Item => if item.key = counterKey then
            ({ item with GlobalVersion := old.GlobalVersion + 1 } : Item) else item)) =
          (fun item : Item => decide (item.key ≠ counterKey)) := by
        funext item
        simp only [Function.comp]
        split_ifs <;> rfl
      rw [hcomp]
      conv_rhs => rw [← List.map_id (List.filter _ t)]
      apply List.map_congr_left
      intro item hitem
      have := (List.mem_filter.mp hitem).2
      simp only [decide_eq_true_eq] at this
      simp [this]

theorem tableUpdateItem_attributes (t : Table) :
    (tableUpdateItem counterKey t).1 = [("GlobalVersion", .N (formatNat (t.counter + 1)))] := by
  unfold tableUpdateItem Table.counter
  cases t.lookup counterKey <;> rfl

theorem allocated_counter (n : Nat) (t : Table) : (allocated n t).counter = t.counter + n := by
  induction n generalizing t with
  | zero => rfl
  | succ n ih => rw [allocated, ih, tableUpdateItem_counter]; omega

theorem allocated_eventRecords (n : Nat) (t : Table) :
    (allocated n t).eventRecords = t.eventRecords := by
  induction n generalizing t with
  | zero => rfl
  | succ n ih => rw [allocated, ih, tableUpdateItem_eventRecords]

theorem allocated_lookup_of_ne (n : Nat) (t : Table) (k : Key) (hk : k ≠ counterKey) :
    (allocated n t).lookup k = t.lookup k := by
  induction n generalizing t with
  | zero => rfl
  | succ n ih => rw [allocated, ih, tableUpdateItem_lookup, if_neg hk]

theorem allocated_lookup_counter (n : Nat) (t : Table) (hn : 0 < n) :
    ((allocated n t).lookup counterKey).isSome = true := by
  induction n generalizing t with
  | zero => omega
  | succ n ih =>
      rw [allocated]
      rcases Nat.eq_zero_or_pos n with h0 | hpos
      · subst h0
        simp only [allocated]
        rw [tableUpdateItem_lookup, if_pos rfl]
        cases t.lookup counterKey <;> rfl
      · exact ih _ hpos

/-! ## The table: puts -/

theorem uint64Mod_eq : uint64Mod = 18446744073709551616 := by
  norm_num [uint64Mod]

theorem Event.put_conditionHolds (event : Event) (t : Table) :
    event.put.conditionHolds t = (t.lookup event.key).isNone := by
  unfold Put.conditionHolds
  simp only [Event.put, Event.item_key]
  cases hold : t.lookup event.key with
  | none => rfl
  | some old =>
      have hk := Table.lookup_key t _ _ hold
      have hv : old.Version = event.Version := by
        have := congrArg Key.Version hk
        simpa [Item.key, Event.key] using this
      simp only [Option.isNone_some, decide_eq_false_iff_not, hv, uint64Mod_eq]
      omega

theorem tablePut_lookup (t : Table) (item : Item) (k : Key) :
    (tablePut t item).lookup k = if k = item.key then some item else t.lookup k := by
  unfold tablePut Table.lookup
  rw [List.find?_append, List.find?_filter]
  by_cases hk : k = item.key
  · subst hk
    have hnone : List.find? (fun a : Item =>
        decide (decide (a.key ≠ item.key) = true ∧ decide (a.key = item.key) = true)) t
        = none := by
      rw [List.find?_eq_none]
      intro a _
      by_cases h : a.key = item.key <;> simp [h]
    rw [hnone]
    simp
  · have hne : ¬ item.key = k := fun h => hk h.symm
    have hp : (fun a : Item =>
        decide (decide (a.key ≠ item.key) = true ∧ decide (a.key = k) = true)) =
        (fun a : Item => decide (a.key = k)) := by
      funext a
      by_cases h : a.key = k
      · simp [h, hk]
      · simp [h]
    rw [hp]
    simp [hk, hne]

theorem tablePut_counter (t : Table) (item : Item) (h : item.key ≠ counterKey) :
    (tablePut t item).counter = t.counter := by
  unfold Table.counter
  rw [tablePut_lookup, if_neg (fun hk => h hk.symm)]

theorem tablePut_eventRecords (t : Table) (item : Item) (h : item.key ≠ counterKey)
    (habsent : t.lookup item.key = none) :
    (tablePut t item).eventRecords = t.eventRecords ++ [item] := by
  have hall := (Table.lookup_eq_none_iff t item.key).mp habsent
  have hfilter : t.filter (fun old => decide (old.key ≠ item.key)) = t := by
    rw [List.filter_eq_self]
    intro a ha
    simpa using hall a ha
  unfold tablePut
  rw [hfilter]
  unfold Table.eventRecords
  rw [List.filter_append]
  simp [h]

/-- Puts on keys that are pairwise distinct, absent from the table and not the counter's:
each appends its item to the event records, and the counter stays. -/
theorem foldl_tablePut (puts : List Put) :
    ∀ t : Table, (puts.map (fun p => p.Item.key)).Nodup →
      (∀ p ∈ puts, t.lookup p.Item.key = none) →
      (∀ p ∈ puts, p.Item.key ≠ counterKey) →
      (puts.foldl (fun acc p => tablePut acc p.Item) t).eventRecords =
          t.eventRecords ++ puts.map (fun p => p.Item) ∧
        (puts.foldl (fun acc p => tablePut acc p.Item) t).counter = t.counter := by
  induction puts with
  | nil => intro t _ _ _; simp
  | cons p rest ih =>
      intro t hnodup habsent hne
      simp only [List.map_cons, List.nodup_cons] at hnodup
      simp only [List.foldl_cons]
      have hp := habsent p (List.mem_cons_self _ _)
      have hpk := hne p (List.mem_cons_self _ _)
      have hrest : ∀ q ∈ rest, (tablePut t p.Item).lookup q.Item.key = none := by
        intro q hq
        rw [tablePut_lookup]
        have : q.Item.key ≠ p.Item.key := by
          intro heq
          apply hnodup.1
          rw [← heq]
          exact List.mem_map_of_mem (fun p => p.Item.key) hq
        rw [if_neg this]
        exact habsent q (List.mem_cons_of_mem _ hq)
      obtain ⟨h1, h2⟩ := ih (tablePut t p.Item) hnodup.2 hrest
        (fun q hq => hne q (List.mem_cons_of_mem _ hq))
      rw [h1, h2, tablePut_eventRecords t p.Item hpk hp, tablePut_counter t p.Item hpk]
      simp

/-- A transaction the table refuses or cancels writes nothing. -/
theorem tableTransactWriteItems_failed (puts : List Put) (t : Table)
    (h : (tableTransactWriteItems puts t).1 ≠ none) :
    (tableTransactWriteItems puts t).2 = t := by
  unfold tableTransactWriteItems at h ⊢
  split_ifs with h1 h2
  · rw [if_pos h1, if_pos h2] at h
    exact absurd rfl h
  · rfl
  · rfl

/-! ## `Save` on the table -/

theorem getAndUpdateGlobalVersion_dynamodb (t : Table) :
    getAndUpdateGlobalVersion dynamodb t =
      (if t.counter + 1 < uint64Mod then .ret (t.counter + 1, none)
        else .ret (0, some (.parsingGlobalVersion .ErrRange)),
       (tableUpdateItem counterKey t).2) := by
  unfold getAndUpdateGlobalVersion
  simp only [dynamodb, tableUpdateItem_attributes]
  simp only [List.lookup, beq_self_eq_true, ParseUint_formatNat]
  split_ifs <;> rfl

theorem stamped_length (c : Nat) (events : List Event) :
    (stamped c events).length = events.length := by
  induction events generalizing c with
  | nil => rfl
  | cons e rest ih => simp [stamped, ih]

theorem stamped_GlobalVersion (c : Nat) (events : List Event) :
    (stamped c events).map (fun e => e.GlobalVersion) = List.range' (c + 1) events.length := by
  induction events generalizing c with
  | nil => rfl
  | cons e rest ih => simp [stamped, ih, List.range'_succ]

theorem saveLoop_dynamodb (pending : List Event) :
    ∀ (done : List Event) (transactItems : List Put) (t : Table),
      t.counter + pending.length < uint64Mod →
      saveLoop dynamodb done pending transactItems t =
        { exit := .inr (transactItems ++ pending.map Event.put),
          events := done ++ stamped t.counter pending,
          db := allocated pending.length t } := by
  induction pending with
  | nil => intro done items t _; simp [saveLoop, stamped, allocated]
  | cons event rest ih =>
      intro done items t hc
      have h1 : t.counter + 1 < uint64Mod := by
        simp only [List.length_cons] at hc; omega
      unfold saveLoop
      rw [getAndUpdateGlobalVersion_dynamodb, if_pos h1]
      simp only [MarshalMap]
      rw [ih]
      · simp [stamped, allocated, tableUpdateItem_counter, Event.put]
      · rw [tableUpdateItem_counter]
        simp only [List.length_cons] at hc
        omega

theorem saveLoop_dynamodb_overflow (pending : List Event) :
    ∀ (done : List Event) (transactItems : List Put) (t : Table),
      pending ≠ [] → uint64Mod ≤ t.counter + pending.length →
      (saveLoop dynamodb done pending transactItems t).exit =
        .inl (.ret (some (.parsingGlobalVersion .ErrRange))) := by
  induction pending with
  | nil => intro _ _ _ h; exact absurd rfl h
  | cons event rest ih =>
      intro done items t _ hc
      unfold saveLoop
      rw [getAndUpdateGlobalVersion_dynamodb]
      by_cases h1 : t.counter + 1 < uint64Mod
      · rw [if_pos h1]
        simp only [MarshalMap]
        apply ih
        · intro hrest
          subst hrest
          simp only [List.length_cons, List.length_nil] at hc
          omega
        · rw [tableUpdateItem_counter]
          simp only [List.length_cons] at hc
          omega
      · rw [if_neg h1]

/-! ## Iterator: the contract of `Next` and `Value` -/

theorem iterator.afterNext_eq (k : Nat) (it : iterator) :
    iterator.afterNext k it = { items := it.items, current := it.current + k } := by
  induction k with
  | zero => simp [iterator.afterNext]
  | succ k ih =>
      simp only [iterator.afterNext, ih, iterator.Next]
      congr 1
      push_cast
      ring

theorem iterator.Value_outOfBounds_iff (it : iterator) :
    it.Value.2 = some Error.outOfBounds ↔
      (it.current < 0 ∨ it.current ≥ it.items.length) := by
  unfold iterator.Value
  by_cases h : it.current < 0 ∨ it.current ≥ it.items.length
  · simp [h]
  · simp only [h, dite_false, iff_false]
    generalize hx : it.items.get _ = item
    unfold UnmarshalMap
    split_ifs <;> simp

theorem iterator.Value_at (it : iterator) (i : Nat) (item : Item)
    (hcur : it.current = i) (hitem : it.items.get? i = some item) :
    it.Value = match UnmarshalMap item with
      | .error err => (Event.zero, some err)
      | .ok event => (event, none) := by
  have hi : i < it.items.length := by
    rcases List.get?_eq_some.mp hitem with ⟨h, _⟩
    exact h
  have hnot : ¬ (it.current < 0 ∨ it.current ≥ it.items.length) := by
    rw [hcur]; omega
  unfold iterator.Value
  simp only [hnot, dite_false]
  have hget : it.items.get ⟨it.current.toNat, by rw [hcur]; simpa using hi⟩ = item := by
    rcases List.get?_eq_some.mp hitem with ⟨h, hh⟩
    rw [← hh]
    congr 1
    simp [hcur]
  rw [hget]

/-- C7.  An iterator returned by `Get` starts at position `-1`.  Over its page of `n` items,
for `1 ≤ k ≤ n` the `k`-th `Next` returns true and `Value` then is the decoding of item
`k - 1`; the `(n + 1)`-th `Next` returns false; and after `k` calls of `Next`, `Value` fails
with the out-of-bounds error exactly when the position is below `0` or at least `n`, which is
exactly when `k = 0` or `k > n`. -/
theorem Get_iterator_contract {σ : Type} (db : Client σ) (id aggregateType : String)
    (afterVersion : Nat) (s s1 : σ) (it : iterator)
    (hget : Get db id aggregateType afterVersion s = (.ok it, s1)) :
    it.current = -1 ∧
    (∀ k item, 1 ≤ k → it.items.get? (k - 1) = some item →
      (iterator.afterNext (k - 1) it).Next.1 = true ∧
      (iterator.afterNext k it).Value =
        (match UnmarshalMap item with
         | .error err => (Event.zero, some err)
         | .ok event => (event, none))) ∧
    (iterator.afterNext it.items.length it).Next.1 = false ∧
    (∀ k, ((iterator.afterNext k it).Value.2 = some Error.outOfBounds ↔
        ((iterator.afterNext k it).current < 0 ∨
          (iterator.afterNext k it).current ≥ it.items.length)) ∧
      (((iterator.afterNext k it).current < 0 ∨
          (iterator.afterNext k it).current ≥ it.items.length) ↔
        (k = 0 ∨ it.items.length < k))) := by
  have hcur : it.current = -1 := by
    unfold Get at hget
    simp only at hget
    split at hget
    · simp at hget
    · simp only [Prod.mk.injEq, Except.ok.injEq] at hget
      rw [← hget.1]
  refine ⟨hcur, ?_, ?_, ?_⟩
  · intro k item hk hitem
    have hlt : k - 1 < it.items.length := (List.get?_eq_some.mp hitem).1
    constructor
    · simp only [iterator.afterNext_eq, iterator.Next, hcur, decide_eq_true_eq]
      omega
    · apply iterator.Value_at _ (k - 1) item
      · simp only [iterator.afterNext_eq, hcur]
        omega
      · simpa [iterator.afterNext_eq] using hitem
  · simp only [iterator.afterNext_eq, iterator.Next, hcur, decide_eq_false_iff_not]
    omega
  · intro k
    constructor
    · rw [iterator.Value_outOfBounds_iff]
      simp [iterator.afterNext_eq]
    · simp only [iterator.afterNext_eq, hcur]
      omega

/-- C9.  `Save` of an empty batch returns `nil`, whatever the client: the backend state is
the one it was called in, so no request has been issued, and the slice is as it was. -/
theorem Save_empty {σ : Type} (db : Client σ) (s : σ) :
    Save db [] s = { err := .ret none, events := [], db := s } := rfl

/-! ## The pre-check of `Save` -/

theorem Save_of_version_mismatch {σ : Type} (db : Client σ) (s s1 : σ) (first : Event)
    (rest : List Event) (lastVersion : Nat)
    (hget : getLastVersion db first.AggregateID s = ((lastVersion, none), s1))
    (hne : (lastVersion + 1) % uint64Mod ≠ first.Version) :
    Save db (first :: rest) s =
      { err := .ret (some .ErrConcurrency), events := first :: rest, db := s1 } := by
  simp [Save, hget, hne]

theorem getLastVersion_dynamodb_state (aggregateID : String) (t : Table) :
    (getLastVersion dynamodb aggregateID t).2 = t := by
  unfold getLastVersion
  simp only [dynamodb]
  split
  · rfl
  · split <;> rfl

/-- What `Save` does on the table once the pre-check has passed and the counter can issue
one value per event: the slice is stamped, the table has had its counter updates, and the
outcome is that of the one transaction. -/
theorem Save_dynamodb (t : Table) (first : Event) (rest : List Event) (lastVersion : Nat)
    (hlast : (getLastVersion dynamodb first.AggregateID t).1 = (lastVersion, none))
    (hversion : (lastVersion + 1) % uint64Mod = first.Version)
    (hcounter : t.counter + (first :: rest).length < uint64Mod) :
    Save dynamodb (first :: rest) t =
      if ((first :: rest).map Event.key).Nodup then
        if ∀ event ∈ first :: rest,
            ((allocated (first :: rest).length t).lookup event.key) = none then
          { err := .ret none, events := stamped t.counter (first :: rest),
            db := ((first :: rest).map Event.put).foldl (fun acc p => tablePut acc p.Item)
              (allocated (first :: rest).length t) }
        else
          { err := .ret (some .ErrConcurrency), events := stamped t.counter (first :: rest),
            db := allocated (first :: rest).length t }
      else
        { err := .ret (some .ValidationException), events := stamped t.counter (first :: rest),
          db := allocated (first :: rest).length t } := by
  have hget : getLastVersion dynamodb first.AggregateID t = ((lastVersion, none), t) :=
    Prod.ext hlast (getLastVersion_dynamodb_state _ _)
  have hkeys : ((first :: rest).map Event.put).map (fun p => p.Item.key) =
      (first :: rest).map Event.key := by
    rw [List.map_map]
    rfl
  have hall : (((first :: rest).map Event.put).all
      (fun p => p.conditionHolds (allocated (first :: rest).length t)) = true) ↔
      ∀ event ∈ first :: rest,
        ((allocated (first :: rest).length t).lookup event.key) = none := by
    rw [List.all_eq_true]
    constructor
    · intro h event hmem
      have := h event.put (List.mem_map_of_mem _ hmem)
      rw [Event.put_conditionHolds] at this
      simpa using this
    · intro h p hp
      obtain ⟨event, hmem, rfl⟩ := List.mem_map.mp hp
      rw [Event.put_conditionHolds, h event hmem]
      rfl
  unfold Save
  simp only [hget, hversion, ne_eq, not_true_eq_false, if_false]
  rw [saveLoop_dynamodb (first :: rest) [] [] t hcounter]
  simp only [List.nil_append, dynamodb, tableTransactWriteItems, hkeys]
  by_cases hnodup : ((first :: rest).map Event.key).Nodup
  · rw [if_pos hnodup, if_pos hnodup]
    by_cases hcond : ∀ event ∈ first :: rest,
        ((allocated (first :: rest).length t).lookup event.key) = none
    · rw [if_pos hcond, if_pos (hall.mpr hcond)]
    · rw [if_neg hcond, if_neg (fun h => hcond (hall.mp h))]
      simp
  · rw [if_neg hnodup, if_neg hnodup]
    simp

/-! ## The last version of an aggregate whose versions are `1..m` -/

theorem Table.mem_versionsOf (t : Table) (aggregateID : String) (v : Nat) :
    v ∈ t.versionsOf aggregateID ↔
      ∃ item ∈ t, item.key ≠ counterKey ∧ item.AggregateID = aggregateID ∧
        item.Version = v := by
  simp only [Table.versionsOf, Table.eventRecords, List.mem_map, List.mem_filter,
    decide_eq_true_eq]
  constructor
  · rintro ⟨item, ⟨⟨hmem, hk⟩, ha⟩, hv⟩
    exact ⟨item, hmem, hk, ha, hv⟩
  · rintro ⟨item, hmem, hk, ha, hv⟩
    exact ⟨item, ⟨⟨hmem, hk⟩, ha⟩, hv⟩

/-- On a table in which the versions stored for an aggregate are exactly `1..m`, with
`uint64` numbers in the records of the aggregate, `getLastVersion` returns `m`. -/
theorem getLastVersion_of_versions (t : Table) (aggregateID : String) (m : Nat)
    (hstored : (t.versionsOf aggregateID).Perm (List.range' 1 m))
    (hm : m < uint64Mod)
    (hgv : ∀ item ∈ t, item.GlobalVersion < uint64Mod) :
    (getLastVersion dynamodb aggregateID t).1 = (m, none) := by
  haveI : IsTotal Item (fun a b => a.Version ≤ b.Version) := ⟨fun a b => Nat.le_total _ _⟩
  haveI : IsTrans Item (fun a b => a.Version ≤ b.Version) := ⟨fun _ _ _ => Nat.le_trans⟩
  have hmemv : ∀ v, v ∈ t.versionsOf aggregateID ↔ v ∈ List.range' 1 m :=
    fun v => hstored.mem_iff
  set input : QueryInput :=
    { AggregateID := aggregateID, versionAbove := none, ScanIndexForward := false,
      Limit := some 1 } with hinput
  set sorted := (t.filter input.matches).insertionSort (fun a b => a.Version ≤ b.Version)
    with hsorted_def
  have hmatch : ∀ item : Item, input.matches item = true ↔ item.AggregateID = aggregateID := by
    intro item
    simp [QueryInput.matches, hinput]
  have hmem : ∀ item, item ∈ sorted ↔ item ∈ t ∧ item.AggregateID = aggregateID := by
    intro item
    rw [hsorted_def, (List.perm_insertionSort _ _).mem_iff, List.mem_filter, hmatch]
  have hsorted : List.Sorted (fun a b : Item => a.Version ≤ b.Version) sorted :=
    List.sorted_insertionSort _ _
  have hle : ∀ item, item ∈ sorted → item.Version ≤ m := by
    intro item hitem
    obtain ⟨hit, ha⟩ := (hmem item).mp hitem
    by_cases hk : item.key = counterKey
    · have : item.Version = 0 := by
        have := congrArg Key.Version hk
        simpa [Item.key, counterKey] using this
      omega
    · have : item.Version ∈ t.versionsOf aggregateID :=
        (Table.mem_versionsOf t aggregateID _).mpr ⟨item, hit, hk, ha, rfl⟩
      have := (hmemv _).mp this
      simp only [List.mem_range'_1] at this
      omega
  have hquery : tableQuery input t = sorted.reverse.take 1 := by
    simp [tableQuery, hinput, hsorted_def]
  unfold getLastVersion
  simp only [dynamodb]
  rw [← hinput, hquery]
  cases hrev : sorted.reverse with
  | nil =>
      simp only [List.take_nil]
      have hnil : sorted = [] := by simpa using hrev
      have hm0 : m = 0 := by
        by_contra hne
        have : m ∈ List.range' 1 m := by
          simp only [List.mem_range'_1]; omega
        obtain ⟨item, hit, _, ha, _⟩ :=
          (Table.mem_versionsOf t aggregateID m).mp ((hmemv m).mpr this)
        have : item ∈ sorted := (hmem item).mpr ⟨hit, ha⟩
        rw [hnil] at this
        simp at this
      rw [hm0]
  | cons top tl =>
      simp only [List.take_succ_cons, List.take_zero]
      have htop : top ∈ sorted := by
        rw [← List.mem_reverse, hrev]
        exact List.mem_cons_self _ _
      have htople : top.Version ≤ m := hle top htop
      have htopt : top ∈ t := ((hmem top).mp htop).1
      have hdec : top.Version < uint64Mod ∧ top.GlobalVersion < uint64Mod :=
        ⟨by omega, hgv top htopt⟩
      have hge : m ≤ top.Version := by
        rcases Nat.eq_zero_or_pos m with h0 | hpos
        · omega
        · have : m ∈ List.range' 1 m := by
            simp only [List.mem_range'_1]; omega
          obtain ⟨item, hit, _, ha, hv⟩ :=
            (Table.mem_versionsOf t aggregateID m).mp ((hmemv m).mpr this)
          have hitem : item ∈ sorted.reverse :=
            List.mem_reverse.mpr ((hmem item).mpr ⟨hit, ha⟩)
          have hpair : List.Pairwise (fun a b : Item => b.Version ≤ a.Version)
              sorted.reverse := List.pairwise_reverse.mpr hsorted
          rw [hrev] at hitem hpair
          rcases List.mem_cons.mp hitem with heq | htl
          · rw [← hv, heq]
          · have := List.rel_of_pairwise_cons hpair htl
            omega
      simp only [UnmarshalMap, hdec, and_self, if_true]
      congr 1
      omega

/-! ## The loop of `Save` over any client -/

theorem assigned_nil (events : List Event) : assigned [] events = events := by
  cases events <;> rfl

theorem assigned_withoutGlobalVersion (values : List Nat) (events : List Event) :
    (assigned values events).map Event.withoutGlobalVersion =
      events.map Event.withoutGlobalVersion := by
  induction values generalizing events with
  | nil => rw [assigned_nil]
  | cons v vs ih =>
      cases events with
      | nil => rfl
      | cons event rest =>
          simp only [assigned, List.map_cons, ih]
          rfl

theorem allocations_length {σ : Type} (db : Client σ) (n : Nat) (s : σ) :
    (allocations db n s).1.length ≤ n ∧
      ((allocations db n s).2.1 = .ret none → (allocations db n s).1.length = n) ∧
      ((allocations db n s).2.1 ≠ .ret none → (allocations db n s).1.length < n) := by
  induction n generalizing s with
  | zero => simp [allocations]
  | succ n ih =>
      unfold allocations
      rcases hg : getAndUpdateGlobalVersion db s with ⟨out, s1⟩
      cases out with
      | panic => simp
      | ret r =>
          obtain ⟨v, e⟩ := r
          cases e with
          | some err => simp
          | none =>
              simp only [List.length_cons]
              obtain ⟨h1, h2, h3⟩ := ih s1
              exact ⟨by omega, fun h => by rw [h2 h], fun h => by have := h3 h; omega⟩

/-- The loop of `Save`, in terms of the allocator run: the events that got a value carry
it, the others are as they were; the loop goes on to the commit exactly when every call
returned a value, and otherwise ends the call with the outcome of the failing allocation. -/
theorem saveLoop_eq {σ : Type} (db : Client σ) (pending : List Event) :
    ∀ (done : List Event) (transactItems : List Put) (s : σ),
      saveLoop db done pending transactItems s =
        { exit :=
            if (allocations db pending.length s).2.1 = .ret none then
              .inr (transactItems ++ pending.map Event.put)
            else .inl (allocations db pending.length s).2.1,
          events := done ++ assigned (allocations db pending.length s).1 pending,
          db := (allocations db pending.length s).2.2 } := by
  induction pending with
  | nil => intro done items s; simp [saveLoop, allocations, assigned]
  | cons event rest ih =>
      intro done items s
      unfold saveLoop
      simp only [List.length_cons]
      unfold allocations
      rcases hg : getAndUpdateGlobalVersion db s with ⟨out, s1⟩
      cases out with
      | panic => simp [assigned]
      | ret r =>
          obtain ⟨v, e⟩ := r
          cases e with
          | some err => simp [assigned]
          | none =>
              simp only [MarshalMap]
              rw [ih]
              simp [assigned, Event.put]

theorem Save_withoutGlobalVersion {σ : Type} (db : Client σ) (events : List Event) (s : σ) :
    (Save db events s).events.map Event.withoutGlobalVersion =
      events.map Event.withoutGlobalVersion := by
  unfold Save
  cases events with
  | nil => rfl
  | cons first rest =>
      simp only
      rcases hg : getLastVersion db first.AggregateID s with ⟨⟨lastVersion, e⟩, s1⟩
      cases e with
      | some err => rfl
      | none =>
          simp only
          split_ifs with hv
          · rfl
          · rw [saveLoop_eq]
            split_ifs with hrun
            · simp only [List.nil_append]
              rcases db.TransactWriteItems _ _ with ⟨e3, s3⟩
              cases e3 with
              | none => exact assigned_withoutGlobalVersion _ _
              | some err =>
                  simp only
                  split_ifs <;> exact assigned_withoutGlobalVersion _ _
            · exact assigned_withoutGlobalVersion _ _

/-! ## `Get` below the sign boundary, and the allocator on any answer -/

theorem toInt64_of_lt (v : Nat) (hv : v < int64Bound) : toInt64 v = (v : Int) := by
  have h1 : v % uint64Mod = v := by
    apply Nat.mod_eq_of_lt
    simp only [int64Bound, uint64Mod] at hv ⊢
    omega
  simp [toInt64, h1, hv]

/-- With `afterVersion` below `2 ^ 63` the table client serves `Get` as documented: the
iterator is before the first element of a page that holds exactly the records of the
aggregate with `Version > afterVersion`, ascending, and strictly so on a table whose keys
are distinct. -/
theorem Get_dynamodb_below_int64Bound (t : Table) (id aggregateType : String)
    (afterVersion : Nat) (hV : afterVersion < int64Bound) :
    ∃ it : iterator, Get dynamodb id aggregateType afterVersion t = (.ok it, t) ∧
      it.current = -1 ∧
      (∀ item, item ∈ it.items ↔
        (item ∈ t ∧ item.AggregateID = id ∧ afterVersion < item.Version)) ∧
      List.Sorted (fun a b : Item => a.Version ≤ b.Version) it.items ∧
      ((t.map Item.key).Nodup →
        List.Pairwise (fun a b : Item => a.Version < b.Version) it.items) := by
  haveI : IsTotal Item (fun a b => a.Version ≤ b.Version) := ⟨fun a b => Nat.le_total _ _⟩
  haveI : IsTrans Item (fun a b => a.Version ≤ b.Version) := ⟨fun _ _ _ => Nat.le_trans⟩
  set input : QueryInput :=
    { AggregateID := id, versionAbove := some (toInt64 afterVersion),
      ScanIndexForward := true, Limit := none } with hinput
  have hmatch : ∀ item : Item, input.matches item = true ↔
      (item.AggregateID = id ∧ afterVersion < item.Version) := by
    intro item
    simp [QueryInput.matches, hinput, toInt64_of_lt afterVersion hV]
  have hquery : tableQuery input t =
      (t.filter input.matches).insertionSort (fun a b => a.Version ≤ b.Version) := by
    simp [tableQuery, hinput]
  have hperm := List.perm_insertionSort (fun a b : Item => a.Version ≤ b.Version)
    (t.filter input.matches)
  have hmem : ∀ item, item ∈ tableQuery input t ↔
      (item ∈ t ∧ item.AggregateID = id ∧ afterVersion < item.Version) := by
    intro item
    rw [hquery, hperm.mem_iff, List.mem_filter, hmatch]
  have hsorted : List.Sorted (fun a b : Item => a.Version ≤ b.Version) (tableQuery input t) := by
    rw [hquery]
    exact List.sorted_insertionSort _ _
  refine ⟨{ items := tableQuery input t, current := -1 }, rfl, rfl, hmem, hsorted, ?_⟩
  intro hnodup
  have hkeys : ((tableQuery input t).map Item.key).Nodup := by
    rw [hquery]
    have h1 : ((t.filter input.matches).map Item.key).Nodup :=
      List.Nodup.sublist (List.Sublist.map _ (List.filter_sublist _)) hnodup
    exact (List.Perm.nodup_iff (List.Perm.map _ hperm)).mpr h1
  have hne : List.Pairwise (fun a b : Item => a.key ≠ b.key) (tableQuery input t) :=
    (List.pairwise_map).mp hkeys
  have hboth := List.Pairwise.and hsorted (List.Pairwise.and_mem.mp hne)
  refine hboth.imp ?_
  rintro a b ⟨hle, ha, hb, hab⟩
  have haid := ((hmem a).mp ha).2.1
  have hbid := ((hmem b).mp hb).2.1
  have hv : a.Version ≠ b.Version := by
    intro h
    apply hab
    simp only [Item.key, haid, hbid, h]
  omega

/-- Whatever the client, an answer of the counter update without a number attribute
`GlobalVersion` makes the allocator panic. -/
theorem getAndUpdateGlobalVersion_panic {σ : Type} (db : Client σ) (s s1 : σ)
    (attributes : Attributes) (hanswer : db.UpdateItem counterKey s = (.ok attributes, s1))
    (hnot : ∀ text : String, attributes.lookup "GlobalVersion" ≠ some (.N text)) :
    getAndUpdateGlobalVersion db s = (.panic, s1) := by
  unfold getAndUpdateGlobalVersion
  rw [hanswer]
  simp only

/-- Whatever the client, a number attribute whose text does not parse makes the allocator
return version `0` with the wrapped parse error. -/
theorem getAndUpdateGlobalVersion_parse_error {σ : Type} (db : Client σ) (s s1 : σ)
    (attributes : Attributes) (text : String) (cause : NumError)
    (hanswer : db.UpdateItem counterKey s = (.ok attributes, s1))
    (hnumber : attributes.lookup "GlobalVersion" = some (.N text))
    (hparse : ParseUint text = .error cause) :
    getAndUpdateGlobalVersion db s = (.ret (0, some (.parsingGlobalVersion cause)), s1) := by
  unfold getAndUpdateGlobalVersion
  rw [hanswer]
  simp only [hnumber, hparse]

/-- The scenario of §8 on the table client, as the caller sees it: the first `Save` assigns
`1`, the repeated one fails with `core.ErrConcurrency` and leaves the table, the `Save` of
version `2` assigns `2`, and `Get` after version `0` yields versions `1`, `2`. -/
theorem scenario_A1 :
    (Save dynamodb [newEvent "A1" 1 [120]] []).err = .ret none ∧
      (Save dynamodb [newEvent "A1" 1 [120]] []).events.map (fun e => e.GlobalVersion) = [1] ∧
      (Save dynamodb [newEvent "A1" 1 [121]] tableA1).err = .ret (some .ErrConcurrency) ∧
      (Save dynamodb [newEvent "A1" 1 [121]] tableA1).db = tableA1 ∧
      (Save dynamodb [newEvent "A1" 2 [122]] tableA1).err = .ret none ∧
      (Save dynamodb [newEvent "A1" 2 [122]] tableA1).events.map (fun e => e.GlobalVersion)
        = [2] ∧
      (((Get dynamodb "A1" "Account" 0
          (Save dynamodb [newEvent "A1" 2 [122]] tableA1).db).1.toOption.map
        (fun it => it.items.map (fun item => item.Version))) = some [1, 2]) := by
  decide

/-! ## The claims on `Save` -/

/-- C1.  On every table and every non-empty batch: when the last version `getLastVersion`
returns for the aggregate of `events[0]` is not `events[0].Version - 1`, that is
`lastVersion + 1 != events[0].Version` in `uint64`, `Save` returns `core.ErrConcurrency`, the
table is the same table (no counter increment, no write) and the slice is the same slice. -/
theorem Save_version_mismatch (t : Table) (first : Event) (rest : List Event)
    (lastVersion : Nat)
    (hlast : (getLastVersion dynamodb first.AggregateID t).1 = (lastVersion, none))
    (hne : (lastVersion + 1) % uint64Mod ≠ first.Version) :
    Save dynamodb (first :: rest) t =
      { err := .ret (some .ErrConcurrency), events := first :: rest, db := t } := by
  exact Save_of_version_mismatch dynamodb t t first rest lastVersion
    (Prod.ext hlast (getLastVersion_dynamodb_state _ _)) hne

theorem Get_iterator_contract_witness :
    Get dynamodb "A1" "Account" 0 tableA1 = (.ok (iterator.mk [recordA1] (-1)), tableA1) ∧
      (iterator.afterNext 1 (iterator.mk [recordA1] (-1))).Next.1 = false :=
  ⟨rfl, (Get_iterator_contract dynamodb "A1" "Account" 0 tableA1 tableA1 _ rfl).2.2.1⟩

theorem Save_version_mismatch_witness :
    (getLastVersion dynamodb (newEvent "A1" 1 [121]).AggregateID tableA1).1 = (1, none) ∧
      (1 + 1) % uint64Mod ≠ (newEvent "A1" 1 [121]).Version ∧
      Save dynamodb [newEvent "A1" 1 [121]] tableA1 =
        { err := .ret (some .ErrConcurrency), events := [newEvent "A1" 1 [121]],
          db := tableA1 } :=
  ⟨rfl, by decide, Save_version_mismatch tableA1 (newEvent "A1" 1 [121]) [] 1 rfl (by decide)⟩

/-- A `Save` on the table that returns `nil` for a non-empty batch has passed the pre-check
and has had the counter issue a `uint64` value per event. -/
theorem Save_dynamodb_nil (t : Table) (first : Event) (rest : List Event)
    (hok : (Save dynamodb (first :: rest) t).err = .ret none) :
    ∃ lastVersion : Nat,
      (getLastVersion dynamodb first.AggregateID t).1 = (lastVersion, none) ∧
      (lastVersion + 1) % uint64Mod = first.Version ∧
      t.counter + (first :: rest).length < uint64Mod := by
  have hstate := getLastVersion_dynamodb_state first.AggregateID t
  rcases hg : getLastVersion dynamodb first.AggregateID t with ⟨⟨lastVersion, e⟩, s1⟩
  rw [hg] at hstate
  simp only at hstate
  subst hstate
  unfold Save at hok
  cases e with
  | some err => simp [hg] at hok
  | none =>
      refine ⟨lastVersion, rfl, ?_, ?_⟩
      · by_contra hv
        simp [hg, hv] at hok
      · by_contra hc
        have hover := saveLoop_dynamodb_overflow (first :: rest) [] [] s1 (by simp)
          (by omega)
        rcases hl : saveLoop dynamodb [] (first :: rest) [] s1 with ⟨exit, evs, s2⟩
        rw [hl] at hover
        simp only at hover
        subst hover
        by_cases hv : (lastVersion + 1) % uint64Mod = first.Version
        · simp [hg, hv, hl] at hok
        · simp [hg, hv] at hok

/-- C3.  A `Save` on the table that returns `nil`, the counter holding `c` before the call
(`0` without a counter record): the slice the caller holds afterwards carries
`c + 1, c + 2, ..., c + n` in its `GlobalVersion` fields, in input order, and the counter
holds `c + n`.  On a table that has never allocated, the first event gets `1`. -/
theorem Save_assigns_consecutive (t : Table) (events : List Event)
    (hok : (Save dynamodb events t).err = .ret none) :
    (Save dynamodb events t).events.map (fun event => event.GlobalVersion) =
        List.range' (t.counter + 1) events.length ∧
      (Save dynamodb events t).db.counter = t.counter + events.length := by
  cases events with
  | nil => simp [Save]
  | cons first rest =>
      obtain ⟨lastVersion, hlast, hversion, hcounter⟩ := Save_dynamodb_nil t first rest hok
      rw [Save_dynamodb t first rest lastVersion hlast hversion hcounter] at hok ⊢
      by_cases hnodup : ((first :: rest).map Event.key).Nodup
      · rw [if_pos hnodup] at hok ⊢
        by_cases hcond : ∀ event ∈ first :: rest,
            ((allocated (first :: rest).length t).lookup event.key) = none
        · rw [if_pos hcond]
          refine ⟨stamped_GlobalVersion _ _, ?_⟩
          have hkeys : ((first :: rest).map Event.put).map (fun p => p.Item.key) =
              (first :: rest).map Event.key := by
            rw [List.map_map]; rfl
          have hne : ∀ event ∈ first :: rest, event.key ≠ counterKey := by
            intro event hmem hk
            have h1 := hcond event hmem
            have h2 := allocated_lookup_counter (first :: rest).length t (by simp)
            rw [hk] at h1
            rw [h1] at h2
            simp at h2
          have := (foldl_tablePut ((first :: rest).map Event.put)
            (allocated (first :: rest).length t) (by rw [hkeys]; exact hnodup)
            (by
              intro p hp
              obtain ⟨event, hmem, rfl⟩ := List.mem_map.mp hp
              exact hcond event hmem)
            (by
              intro p hp
              obtain ⟨event, hmem, rfl⟩ := List.mem_map.mp hp
              exact hne event hmem)).2
          simp only
          rw [this, allocated_counter]
        · rw [if_neg hcond] at hok
          simp at hok
      · rw [if_neg hnodup] at hok
        simp at hok

theorem Save_assigns_consecutive_witness :
    (Save dynamodb [newEvent "A1" 2 [122], newEvent "A1" 3 [123]] tableA1).err = .ret none ∧
      (Save dynamodb [newEvent "A1" 2 [122], newEvent "A1" 3 [123]] tableA1).events.map
          (fun event => event.GlobalVersion) = List.range' (tableA1.counter + 1) 2 ∧
      (Save dynamodb [newEvent "A1" 2 [122], newEvent "A1" 3 [123]] tableA1).db.counter =
        tableA1.counter + 2 :=
  ⟨by decide,
    Save_assigns_consecutive tableA1 [newEvent "A1" 2 [122], newEvent "A1" 3 [123]]
      (by decide)⟩

/-- C4.  A batch with pairwise distinct keys that has passed the pre-check, on a table whose
counter can issue a value per event.  `Save` returns `core.ErrConcurrency` exactly when the
table the commit meets, which is the table of the call after the `n` counter updates, holds
a record under the key of some event of the batch, and returns `nil` otherwise.  Under every
key but the counter's, that table holds what the table of the call held.  When `Save`
returns `core.ErrConcurrency` the event records are those of the call and the counter has
advanced by `n`. -/
theorem Save_commit_conflict (t : Table) (first : Event) (rest : List Event)
    (lastVersion : Nat)
    (hdistinct : ((first :: rest).map Event.key).Nodup)
    (hlast : (getLastVersion dynamodb first.AggregateID t).1 = (lastVersion, none))
    (hversion : (lastVersion + 1) % uint64Mod = first.Version)
    (hcounter : t.counter + (first :: rest).length < uint64Mod) :
    ((Save dynamodb (first :: rest) t).err = .ret (some .ErrConcurrency) ↔
        ∃ event ∈ first :: rest,
          ((allocated (first :: rest).length t).lookup event.key).isSome = true) ∧
      ((¬ ∃ event ∈ first :: rest,
          ((allocated (first :: rest).length t).lookup event.key).isSome = true) →
        (Save dynamodb (first :: rest) t).err = .ret none) ∧
      (∀ k : Key, k ≠ counterKey →
        (allocated (first :: rest).length t).lookup k = t.lookup k) ∧
      ((Save dynamodb (first :: rest) t).err = .ret (some .ErrConcurrency) →
        (Save dynamodb (first :: rest) t).db.eventRecords = t.eventRecords ∧
        (Save dynamodb (first :: rest) t).db.counter = t.counter + (first :: rest).length) := by
  rw [Save_dynamodb t first rest lastVersion hlast hversion hcounter, if_pos hdistinct]
  have hex : (∃ event ∈ first :: rest,
      ((allocated (first :: rest).length t).lookup event.key).isSome = true) ↔
      ¬ ∀ event ∈ first :: rest,
        ((allocated (first :: rest).length t).lookup event.key) = none := by
    constructor
    · rintro ⟨event, hmem, hsome⟩ hall
      rw [hall event hmem] at hsome
      simp at hsome
    · intro h
      push_neg at h
      obtain ⟨event, hmem, hne⟩ := h
      exact ⟨event, hmem, Option.isSome_iff_ne_none.mpr hne⟩
  rw [hex]
  by_cases hcond : ∀ event ∈ first :: rest,
      ((allocated (first :: rest).length t).lookup event.key) = none
  · rw [if_pos hcond]
    refine ⟨?_, ?_, ?_, ?_⟩
    · constructor
      · intro h; simp at h
      · intro h; exact absurd hcond h
    · intro _; rfl
    · intro k hk; exact allocated_lookup_of_ne _ t k hk
    · intro h; simp at h
  · rw [if_neg hcond]
    refine ⟨?_, ?_, ?_, ?_⟩
    · exact ⟨fun _ => hcond, fun _ => rfl⟩
    · intro h; exact absurd h (not_not.mpr hcond)
    · intro k hk; exact allocated_lookup_of_ne _ t k hk
    · intro _
      exact ⟨allocated_eventRecords _ t, allocated_counter _ t⟩

theorem Save_commit_conflict_witness :
    ([newEvent "A1" 2 [122], newEvent "A1" 1 [121]].map Event.key).Nodup ∧
      (getLastVersion dynamodb (newEvent "A1" 2 [122]).AggregateID tableA1).1 = (1, none) ∧
      (Save dynamodb [newEvent "A1" 2 [122], newEvent "A1" 1 [121]] tableA1).err =
        .ret (some .ErrConcurrency) ∧
      (Save dynamodb [newEvent "A1" 2 [122], newEvent "A1" 1 [121]] tableA1).db.eventRecords =
        tableA1.eventRecords :=
  ⟨by decide, rfl, by decide,
    ((Save_commit_conflict tableA1 (newEvent "A1" 2 [122]) [newEvent "A1" 1 [121]] 1
      (by decide) rfl (by decide) (by decide)).2.2.2 (by decide)).1⟩

/-- C5.  On a table in which the versions stored for aggregate `A` are exactly `1..m` (the
stored numbers being `uint64` values, the counter able to issue one value per event), a
non-empty batch of events of `A` with versions `m + 1, ..., m + n` in input order: `Save`
returns `nil`; the event records afterwards are those of the call followed by one record per
event, the item the event encodes to, under its key `(A, Version)`; and the versions stored
for `A` are exactly `1..m + n`. -/
theorem Save_appends_contiguous (t : Table) (A : String) (m : Nat) (first : Event)
    (rest : List Event)
    (hstored : (t.versionsOf A).Perm (List.range' 1 m))
    (haggregate : ∀ event ∈ first :: rest, event.AggregateID = A)
    (hversions : (first :: rest).map (fun event => event.Version) =
      List.range' (m + 1) (first :: rest).length)
    (huint64 : m + (first :: rest).length < uint64Mod)
    (hstoredGV : ∀ item ∈ t, item.GlobalVersion < uint64Mod)
    (hcounter : t.counter + (first :: rest).length < uint64Mod) :
    (Save dynamodb (first :: rest) t).err = .ret none ∧
      (Save dynamodb (first :: rest) t).db.eventRecords =
        t.eventRecords ++ (first :: rest).map Event.item ∧
      (∀ event ∈ first :: rest, event.item.key = { AggregateID := A, Version := event.Version }) ∧
      ((Save dynamodb (first :: rest) t).db.versionsOf A).Perm
        (List.range' 1 (m + (first :: rest).length)) := by
  have hfirstA : first.AggregateID = A := haggregate first (List.mem_cons_self _ _)
  have hfirstV : first.Version = m + 1 := by
    have := congrArg List.head? hversions
    simpa [List.range'_succ] using this
  have hlast : (getLastVersion dynamodb first.AggregateID t).1 = (m, none) := by
    rw [hfirstA]
    exact getLastVersion_of_versions t A m hstored (by omega) hstoredGV
  have hversion : (m + 1) % uint64Mod = first.Version := by
    rw [hfirstV]
    apply Nat.mod_eq_of_lt
    simp only [List.length_cons] at huint64
    omega
  have hverOf : ∀ event ∈ first :: rest, m + 1 ≤ event.Version := by
    intro event hmem
    have : event.Version ∈ (first :: rest).map (fun event => event.Version) :=
      List.mem_map_of_mem (fun event => event.Version) hmem
    rw [hversions] at this
    simp only [List.mem_range'_1] at this
    omega
  have hnodup : ((first :: rest).map Event.key).Nodup := by
    have hv : ((first :: rest).map (fun event => event.Version)).Nodup := by
      rw [hversions]; exact List.nodup_range' _ _
    have hmap : (first :: rest).map (fun event => event.Version) =
        ((first :: rest).map Event.key).map Key.Version := by
      rw [List.map_map]; rfl
    rw [hmap] at hv
    exact List.Nodup.of_map _ hv
  have hnotcounter : ∀ event ∈ first :: rest, event.key ≠ counterKey := by
    intro event hmem hk
    have h1 := hverOf event hmem
    have : event.Version = 0 := by
      have := congrArg Key.Version hk
      simpa [Event.key, counterKey] using this
    omega
  have habsent : ∀ event ∈ first :: rest,
      ((allocated (first :: rest).length t).lookup event.key) = none := by
    intro event hmem
    rw [allocated_lookup_of_ne _ t _ (hnotcounter event hmem), Table.lookup_eq_none_iff]
    intro item hitem hk
    have hv : item.Version = event.Version := by
      have := congrArg Key.Version hk
      simpa [Item.key, Event.key] using this
    have ha : item.AggregateID = A := by
      have := congrArg Key.AggregateID hk
      rw [← haggregate event hmem]
      simpa [Item.key, Event.key] using this
    have hin : item.Version ∈ t.versionsOf A :=
      (Table.mem_versionsOf t A _).mpr
        ⟨item, hitem, by rw [hk]; exact hnotcounter event hmem, ha, rfl⟩
    have := hstored.mem_iff.mp hin
    simp only [List.mem_range'_1] at this
    have := hverOf event hmem
    omega
  rw [Save_dynamodb t first rest m hlast hversion hcounter, if_pos hnodup, if_pos habsent]
  have hkeys : ((first :: rest).map Event.put).map (fun p => p.Item.key) =
      (first :: rest).map Event.key := by
    rw [List.map_map]; rfl
  have hitems : ((first :: rest).map Event.put).map (fun p => p.Item) =
      (first :: rest).map Event.item := by
    rw [List.map_map]; rfl
  have hfold := (foldl_tablePut ((first :: rest).map Event.put)
    (allocated (first :: rest).length t) (by rw [hkeys]; exact hnodup)
    (by
      intro p hp
      obtain ⟨event, hmem, rfl⟩ := List.mem_map.mp hp
      exact habsent event hmem)
    (by
      intro p hp
      obtain ⟨event, hmem, rfl⟩ := List.mem_map.mp hp
      exact hnotcounter event hmem)).1
  rw [allocated_eventRecords, hitems] at hfold
  refine ⟨rfl, hfold, ?_, ?_⟩
  · intro event hmem
    rw [Event.item_key, Event.key, haggregate event hmem]
  · simp only [Table.versionsOf] at hstored ⊢
    rw [hfold, List.filter_append, List.map_append]
    have hall : ((first :: rest).map Event.item).filter
        (fun item => decide (item.AggregateID = A)) = (first :: rest).map Event.item := by
      rw [List.filter_eq_self]
      intro item hitem
      obtain ⟨event, hmem, rfl⟩ := List.mem_map.mp hitem
      simpa [Event.item] using haggregate event hmem
    have hv2 : ((first :: rest).map Event.item).map (fun item => item.Version) =
        List.range' (m + 1) (first :: rest).length := by
      rw [List.map_map, ← hversions]; rfl
    rw [hall, hv2]
    have happ : List.range' 1 (m + (first :: rest).length) =
        List.range' 1 m ++ List.range' (m + 1) (first :: rest).length := by
      have := List.range'_append 1 m (first :: rest).length 1
      rw [Nat.one_mul, Nat.add_comm 1 m, Nat.add_comm (first :: rest).length m] at this
      exact this.symm
    rw [happ]
    exact List.Perm.append_right _ hstored

/-- C10.  Over any client.  `Save` changes no field of an input event but `GlobalVersion`.
For a batch that has passed the pre-check, take the run of the allocator from the state the
pre-check left: the slice on return carries the issued values in the events that got one and
is unchanged beyond them.  When the run fails at index `k`, that is after issuing `k < n`
values, `Save` ends with the outcome of the failing call, in the state that call left: no
commit is issued and `events[0..k-1]` stay overwritten.  When all `n` calls return a value
and the transaction then fails, `Save` returns the error (`core.ErrConcurrency` for a
cancelled transaction) in the state the failed transaction left, and all `n` events carry
their values; on the table client a failed transaction has written nothing. -/
theorem Save_mutates_events {σ : Type} (db : Client σ) (events : List Event) (s : σ) :
    (Save db events s).events.map Event.withoutGlobalVersion =
        events.map Event.withoutGlobalVersion ∧
      (∀ (puts : List Put) (t : Table), (dynamodb.TransactWriteItems puts t).1 ≠ none →
        (dynamodb.TransactWriteItems puts t).2 = t) ∧
      ∀ (first : Event) (rest : List Event) (lastVersion : Nat) (s1 : σ),
        events = first :: rest →
        getLastVersion db first.AggregateID s = ((lastVersion, none), s1) →
        (lastVersion + 1) % uint64Mod = first.Version →
        (Save db events s).events = assigned (allocations db events.length s1).1 events ∧
        ((allocations db events.length s1).2.1 ≠ .ret none →
          (allocations db events.length s1).1.length < events.length ∧
          (Save db events s).err = (allocations db events.length s1).2.1 ∧
          (Save db events s).db = (allocations db events.length s1).2.2) ∧
        ((allocations db events.length s1).2.1 = .ret none →
          (allocations db events.length s1).1.length = events.length ∧
          ∀ (err : Error) (s3 : σ),
            db.TransactWriteItems (events.map Event.put) (allocations db events.length s1).2.2
              = (some err, s3) →
            (Save db events s).err =
              .ret (some (if err = .TransactionCanceledException then .ErrConcurrency
                else err)) ∧
            (Save db events s).db = s3) := by
  refine ⟨Save_withoutGlobalVersion db events s, tableTransactWriteItems_failed, ?_⟩
  intro first rest lastVersion s1 hev hget hversion
  subst hev
  have hlen := allocations_length db (first :: rest).length s1
  unfold Save
  simp only [hget, hversion, ne_eq, not_true_eq_false, if_false]
  rw [saveLoop_eq]
  by_cases hrun : (allocations db (first :: rest).length s1).2.1 = .ret none
  · rw [if_pos hrun]
    simp only [List.nil_append]
    refine ⟨?_, ?_, ?_⟩
    · rcases db.TransactWriteItems _ _ with ⟨e3, s3⟩
      cases e3 with
      | none => rfl
      | some err => simp only; split_ifs <;> rfl
    · intro h; exact absurd hrun h
    · intro _
      refine ⟨hlen.2.1 hrun, ?_⟩
      intro err s3 htx
      rw [htx]
      simp only
      split_ifs <;> exact ⟨rfl, rfl⟩
  · rw [if_neg hrun]
    refine ⟨rfl, ?_, ?_⟩
    · intro _; exact ⟨hlen.2.2 hrun, rfl, rfl⟩
    · intro h; exact absurd h hrun

theorem Save_mutates_events_witness :
    getLastVersion dynamodb (newEvent "A1" 1 [120]).AggregateID tableLastValue =
        ((0, none), tableLastValue) ∧
      (0 + 1) % uint64Mod = (newEvent "A1" 1 [120]).Version ∧
      (Save dynamodb [newEvent "A1" 1 [120], newEvent "A1" 2 [121]] tableLastValue).events =
        [{ newEvent "A1" 1 [120] with GlobalVersion := uint64Mod - 1 },
         newEvent "A1" 2 [121]] ∧
      (Save dynamodb [newEvent "A1" 1 [120], newEvent "A1" 2 [121]] tableLastValue).err =
        .ret (some (.parsingGlobalVersion .ErrRange)) :=
  ⟨rfl, by decide,
    ((Save_mutates_events dynamodb [newEvent "A1" 1 [120], newEvent "A1" 2 [121]]
      tableLastValue).2.2 (newEvent "A1" 1 [120]) [newEvent "A1" 2 [121]] 0 tableLastValue
      rfl rfl (by decide)).1.trans (by decide),
    by decide⟩

theorem Save_appends_contiguous_witness :
    (tableA1.versionsOf "A1").Perm (List.range' 1 1) ∧
      (Save dynamodb [newEvent "A1" 2 [122], newEvent "A1" 3 [123]] tableA1).err = .ret none ∧
      ((Save dynamodb [newEvent "A1" 2 [122], newEvent "A1" 3 [123]] tableA1).db.versionsOf
        "A1").Perm (List.range' 1 (1 + 2)) :=
  ⟨List.Perm.of_eq rfl,
    (Save_appends_contiguous tableA1 "A1" 1 (newEvent "A1" 2 [122]) [newEvent "A1" 3 [123]]
      (List.Perm.of_eq rfl) (by decide) (by decide) (by decide) (by decide) (by decide)).1,
    (Save_appends_contiguous tableA1 "A1" 1 (newEvent "A1" 2 [122]) [newEvent "A1" 3 [123]]
      (List.Perm.of_eq rfl) (by decide) (by decide) (by decide) (by decide)
      (by decide)).2.2.2⟩

/-! ## Where the code leaves its documentation -/

/-- C2.  On an empty table, `Save([{A1, Version:1}])` returns `nil` and the caller reads
`GlobalVersion = 1` in the slice, while the record stored under `(A1, 1)` carries
`GlobalVersion = 0`, the value of the loop copy `event`; after a second `Save` of
`{A1, Version:2}` the record under `(A1, 2)` carries `0` as well, which is not greater. -/
theorem Save_stores_stale_GlobalVersion :
    (Save dynamodb [newEvent "A1" 1 [120]] []).err = .ret none ∧
      (Save dynamodb [newEvent "A1" 1 [120]] []).events.map (fun event => event.GlobalVersion)
        = [1] ∧
      ((Save dynamodb [newEvent "A1" 1 [120]] []).db.lookup
        { AggregateID := "A1", Version := 1 }).map (fun item => item.GlobalVersion) = some 0 ∧
      (Save dynamodb [newEvent "A1" 2 [122]] tableA1).err = .ret none ∧
      (Save dynamodb [newEvent "A1" 2 [122]] tableA1).events.map
        (fun event => event.GlobalVersion) = [2] ∧
      ((Save dynamodb [newEvent "A1" 2 [122]] tableA1).db.lookup
        { AggregateID := "A1", Version := 2 }).map (fun item => item.GlobalVersion) = some 0 := by
  decide

/-- C6.  On the table that holds `(A1, 1)`, `Get` with `afterVersion = 2 ^ 63` sends
`:version = -2 ^ 63` and returns an iterator over the record of version `1`, which is not
above `2 ^ 63`; with `afterVersion = 2 ^ 63 - 1` the page is empty. -/
theorem Get_afterVersion_wraps :
    toInt64 int64Bound = -9223372036854775808 ∧
      (Get dynamodb "A1" "Account" int64Bound tableA1).1 =
        .ok (iterator.mk [recordA1] (-1)) ∧
      recordA1.Version ≤ int64Bound ∧
      (Get dynamodb "A1" "Account" (int64Bound - 1) tableA1).1 = .ok (iterator.mk [] (-1)) :=
  ⟨by decide, rfl, by decide, rfl⟩

/-- C8.  A counter update answered without the `GlobalVersion` attribute, or with one of
the string type, makes `getAndUpdateGlobalVersion` panic, and `Save` with it; an answer of
the number type whose text is no number returns version `0` with the wrapped parse error. -/
theorem getAndUpdateGlobalVersion_panics :
    (getAndUpdateGlobalVersion (answering []) []).1 = .panic ∧
      (getAndUpdateGlobalVersion (answering [("GlobalVersion", .S "7")]) []).1 = .panic ∧
      (Save (answering []) [newEvent "A1" 1 [120]] []).err = .panic ∧
      (getAndUpdateGlobalVersion (answering [("GlobalVersion", .N "seven")]) []).1 =
        .ret (0, some (.parsingGlobalVersion .ErrSyntax)) := by
  decide

end DynamoES
